import Mathlib

/-!
Verification of the git-files retrieval pipeline (src/main.py).

The Python program is shallowly embedded. HTTP transport is abstracted as
input data: the request executor receives, per attempt index, the outcome
the network would produce; the commit enumerator receives the successive
pages the list endpoint would return; the file resolver receives the
decoded commit detail payload. Control flow, filtering, retry handling and
aggregation are translated statement by statement from the source.
-/

namespace GitFiles

/-- Configuration dataclass (src/main.py, `Config`).  `DATE_RANGE` holds the
two dates already rendered as the `%Y-%m-%d` strings used for the `since`
and `until` query parameters. -/
structure Config where
  GITHUB_TOKEN : String
  GITHUB_REPO : String
  GITHUB_REPO_OWNER : String
  GITHUB_REPO_BRANCH : String
  GITHUB_API_URL : String
  DATE_RANGE : String × String
  MAX_RETRIES : Nat := 3
  RETRY_DELAY : Nat := 2
  RATE_LIMIT_DELAY : Nat := 1
deriving DecidableEq

/-! ## HTTP request executor (`make_request`, `handle_rate_limit`)

A response is modelled by its status code and the rate-limit headers the
code inspects: whether `X-RateLimit-Remaining` is present, and the integer
value of `X-RateLimit-Reset` (`0` when that header is absent, matching
`headers.get('X-RateLimit-Reset', 0)`). -/

structure RespData where
  status : Nat
  hasRateLimitRemaining : Bool
  rateLimitReset : Int
deriving DecidableEq

/-- Outcome of one `requests.get` call: either the call raises a
`RequestException` (network error) or it returns a response. -/
inductive AttemptResult where
  | netError (msg : String)
  | resp (d : RespData)
deriving DecidableEq

/-- An error propagated out of `make_request`: the exception of the final
attempt, either the network error or the `HTTPError` from
`raise_for_status` (identified by its status code). -/
inductive ReqError where
  | netError (msg : String)
  | httpError (status : Nat)
deriving DecidableEq

/-- What `make_request` hands back to its caller: a successful response, a
raised exception, or `None` (the loop body never ran and the function fell
through to an implicit `return None`). -/
inductive RunOutcome where
  | success (d : RespData)
  | failure (e : ReqError)
  | noResponse
deriving DecidableEq

/-- Observable execution state threaded through the executor: the current
clock (`time.time()`), the list of sleep durations performed in order
(rate-limit waits and exponential back-off), and how many `requests.get`
attempts have been issued. -/
structure RunState where
  now : Int
  sleeps : List Int
  attemptsMade : Nat
deriving DecidableEq

/-- `response.raise_for_status()` raises an `HTTPError` exactly for client
and server error status codes (400–599). -/
def raisesForStatus (d : RespData) : Bool :=
  400 ≤ d.status && d.status < 600

/-- `handle_rate_limit` (src/main.py): on a 403 response that carries the
`X-RateLimit-Remaining` header, wait `max(reset_time - time.time(), 0)`
seconds when that is positive. -/
def handle_rate_limit (st : RunState) (d : RespData) : RunState :=
  if d.status == 403 && d.hasRateLimitRemaining then
    let wait : Int := max (d.rateLimitReset - st.now) 0
    if 0 < wait then
      { st with now := st.now + wait, sleeps := st.sleeps ++ [wait] }
    else st
  else st

/-- The `time.sleep(2 ** attempt)` exponential back-off between retries. -/
def backoffSleep (st : RunState) (attempt : Nat) : RunState :=
  { st with now := st.now + (2 : Int) ^ attempt, sleeps := st.sleeps ++ [(2 : Int) ^ attempt] }

/-- The classification of one attempt as the `except` clause sees it:
`none` when the attempt returns a non-error response, otherwise the
exception raised (network error, or `HTTPError` after rate-limit
handling). -/
def attemptError : AttemptResult → Option ReqError
  | .netError msg => some (.netError msg)
  | .resp d => if raisesForStatus d then some (.httpError d.status) else none

/-- The `for attempt in range(max_retries)` loop of `make_request`.
`attempt` is the Python loop variable; `fuel` counts the iterations still
to run (`make_request` starts it at `max_retries`, so the invariant
`attempt + fuel = max_retries` holds at every reachable call).  Each
iteration issues the GET (recorded in `attemptsMade`), runs
`handle_rate_limit` on a returned response, then `raise_for_status`; on an
exception the loop re-raises if `attempt == max_retries - 1` and otherwise
sleeps `2 ^ attempt` seconds and retries. -/
def make_request_loop (attempts : Nat → AttemptResult) (max_retries : Nat) :
    Nat → Nat → RunState → RunOutcome × RunState
  | _, 0, st => (.noResponse, st)
  | attempt, fuel + 1, st =>
    let st1 : RunState := { st with attemptsMade := st.attemptsMade + 1 }
    match attempts attempt with
    | .netError msg =>
      if attempt = max_retries - 1 then (.failure (.netError msg), st1)
      else make_request_loop attempts max_retries (attempt + 1) fuel (backoffSleep st1 attempt)
    | .resp d =>
      let st2 := handle_rate_limit st1 d
      if raisesForStatus d then
        if attempt = max_retries - 1 then (.failure (.httpError d.status), st2)
        else make_request_loop attempts max_retries (attempt + 1) fuel (backoffSleep st2 attempt)
      else (.success d, st2)

/-- `make_request` (src/main.py): run the retry loop from attempt `0` with
clock `t0`, no sleeps performed and no attempts made yet. -/
def make_request (attempts : Nat → AttemptResult) (max_retries : Nat) (t0 : Int) :
    RunOutcome × RunState :=
  make_request_loop attempts max_retries 0 max_retries ⟨t0, [], 0⟩

/-! ## Commit file resolver (`get_commit_files`)

The commit detail payload is abstracted as the decoded `files` array: a
list of entries each carrying a `filename` string. -/

/-- One entry of the `files` array of a commit detail payload. -/
structure CommitFile where
  filename : String
deriving DecidableEq

/-- `p` is a leading segment of `s` (character-wise comparison). -/
def leadsWith : List Char → List Char → Bool
  | [], _ => true
  | _ :: _, [] => false
  | a :: p, b :: s => a == b && leadsWith p s

/-- Python `filename.endswith(ext)`: `ext` is a trailing segment of the
string. -/
def strEndsWith (s ext : String) : Bool :=
  leadsWith ext.toList.reverse s.toList.reverse

/-- Python `sub in s` (substring containment): some tail of `s` starts
with `sub`. -/
def hasSubseg (sub : List Char) : List Char → Bool
  | [] => leadsWith sub []
  | c :: cs => leadsWith sub (c :: cs) || hasSubseg sub cs

/-- The fixed extension blocklist `['.pyc', '.pyo', '.pdf']` of
`get_commit_files`. -/
def blockedExts : List String := [".pyc", ".pyo", ".pdf"]

/-- The exclusion test of `get_commit_files`:
`any(filename.endswith(ext) for ext in ['.pyc', '.pyo', '.pdf']) or 'old' in filename`. -/
def isExcluded (filename : String) : Bool :=
  blockedExts.any (fun ext => strEndsWith filename ext) || hasSubseg "old".toList filename.toList

/-- The accumulation loop of `get_commit_files`: skip excluded filenames,
skip filenames already collected, append the rest in order. -/
def get_commit_files_go : List String → List CommitFile → List String
  | filenames, [] => filenames
  | filenames, file :: files =>
    if isExcluded file.filename then get_commit_files_go filenames files
    else if file.filename ∈ filenames then get_commit_files_go filenames files
    else get_commit_files_go (filenames ++ [file.filename]) files

/-- `get_commit_files` (src/main.py) on a decoded commit detail payload:
filter the `files` array and deduplicate, starting from `filenames = []`.
The HTTP fetch of the payload is abstracted as the `files` input. -/
def get_commit_files (files : List CommitFile) : List String :=
  get_commit_files_go [] files

/-! ## Aggregator (`get_commits_files`)

The Python `set` is modelled as a duplicate-free list: `update` inserts
exactly the elements not yet present (insertion order is irrelevant to the
observable result, which is only read through `sorted(list(files))`). -/

/-- Insert one element into the set model (no-op when present). -/
def setAdd (files : List String) (x : String) : List String :=
  if x ∈ files then files else files ++ [x]

/-- Python `files.update(xs)`: insert every element of `xs`. -/
def setUpdate (files : List String) (xs : List String) : List String :=
  xs.foldl setAdd files

/-- The Boolean form of lexicographic string order used for
`sorted(list(files))`. -/
def stringLe (a b : String) : Bool :=
  decide (a ≤ b)

/-- `get_commits_files` (src/main.py): union the resolver's result for each
URL into the set, then return the sorted list.  The per-URL HTTP fetch is
abstracted as the `resolve` function giving each commit URL's resolved file
list. -/
def get_commits_files (resolve : String → List String) (urls : List String) : List String :=
  (urls.foldl (fun files url => setUpdate files (resolve url)) []).mergeSort stringLe

/-! ## Commit enumerator (`get_commit_urls`)

A commit record of the list endpoint carries its detail `url` and an
`author` object that is `null` for commits whose author cannot be mapped
to a user; accessing `['login']` on `null` raises a `TypeError`, modelled
with `Except`.  The endpoint's successive non-empty pages are given as a
list; once it is exhausted the endpoint serves the empty page that
terminates the loop. -/

structure Author where
  login : String
deriving DecidableEq

structure CommitRecord where
  url : String
  author : Option Author
deriving DecidableEq

/-- The list comprehension of `get_commit_urls`:
`[commit['url'] for commit in data if commit['author']['login'] == config.GITHUB_REPO_OWNER]`.
A record with `author = null` raises `TypeError` when its `login` is
accessed; otherwise the record's URL is kept exactly when the login equals
the configured owner. -/
def filterCommits (owner : String) : List CommitRecord → Except String (List String)
  | [] => .ok []
  | commit :: rest =>
    match commit.author with
    | none => .error "TypeError"
    | some a =>
      match filterCommits owner rest with
      | .error e => .error e
      | .ok urls => .ok (if a.login == owner then commit.url :: urls else urls)

/-- One GET request to the commit list endpoint, with the query parameters
the code sends: `since`, `until`, `per_page=100`, `page`. -/
structure ListRequest where
  url : String
  token : String
  sinceDate : String
  untilDate : String
  perPage : Nat
  page : Nat
deriving DecidableEq

/-- The request `get_commit_urls` issues for one page. -/
def commitListRequest (config : Config) (page : Nat) : ListRequest :=
  { url := config.GITHUB_API_URL
    token := config.GITHUB_TOKEN
    sinceDate := config.DATE_RANGE.1
    untilDate := config.DATE_RANGE.2
    perPage := 100
    page := page }

/-- The `while True` pagination loop of `get_commit_urls`, started at page
counter `1`.  Returns the collected URLs (or the first raised error) paired
with the list requests issued, in order.  When the given pages are
exhausted the endpoint serves an empty page: one final request is issued
and the loop breaks. -/
def get_commit_urls_go (config : Config) :
    List (List CommitRecord) → Nat → Except String (List String) × List ListRequest
  | [], page => (.ok [], [commitListRequest config page])
  | data :: rest, page =>
    if data.isEmpty then (.ok [], [commitListRequest config page])
    else
      match filterCommits config.GITHUB_REPO_OWNER data with
      | .error e => (.error e, [commitListRequest config page])
      | .ok us =>
        let next := get_commit_urls_go config rest (page + 1)
        (next.1.map (fun more => us ++ more), commitListRequest config page :: next.2)

/-- `get_commit_urls` (src/main.py): page through the list endpoint from
page 1, collecting the detail URLs of the configured owner's commits. -/
def get_commit_urls (config : Config) (pages : List (List CommitRecord)) :
    Except String (List String) × List ListRequest :=
  get_commit_urls_go config pages 1

/-! ## Pipeline (`main` minus persistence) -/

/-- One GET request to a commit detail URL (no query parameters). -/
structure DetailRequest where
  url : String
  token : String
deriving DecidableEq

/-- The request `get_commit_files` issues for one commit URL. -/
def commitDetailRequest (config : Config) (url : String) : DetailRequest :=
  { url := url, token := config.GITHUB_TOKEN }

/-- The retrieval pipeline of `main`: enumerate commit URLs, then resolve
and aggregate their file lists.  `detail` gives the decoded detail payload
the endpoint would serve for each commit URL.  Returns the aggregated
output (or the propagated error) together with the list requests and the
detail requests issued. -/
def run_pipeline (config : Config) (pages : List (List CommitRecord))
    (detail : String → List CommitFile) :
    Except String (List String) × List ListRequest × List DetailRequest :=
  match get_commit_urls config pages with
  | (.error e, listReqs) => (.error e, listReqs, [])
  | (.ok urls, listReqs) =>
    (.ok (get_commits_files (fun url => get_commit_files (detail url)) urls),
     listReqs, urls.map (commitDetailRequest config))

/-- First-occurrence deduplication, the specification-side description of
what `get_commit_files` returns: each element is kept at its first
occurrence and its later occurrences are dropped. -/
def firstOccurrences : List String → List String
  | [] => []
  | f :: fs => f :: (firstOccurrences fs).filter (fun g => g != f)

/-- A concrete attempt trace: attempt 0 is an HTTP 403 carrying rate-limit
headers with reset time 5, every later attempt is a plain 200 success. -/
def rateLimitedThenOk : Nat → AttemptResult := fun i =>
  if i = 0 then .resp { status := 403, hasRateLimitRemaining := true, rateLimitReset := 5 }
  else .resp { status := 200, hasRateLimitRemaining := false, rateLimitReset := 0 }

/-- A concrete commit detail payload used as a test input: one kept file,
one blocked suffix, one marker-substring path. -/
def samplePayload : List CommitFile :=
  [⟨"src/app.py"⟩, ⟨"src/app.pyc"⟩, ⟨"src/old_module.py"⟩]

/-- A concrete resolver used as a test input. -/
def sampleResolve : String → List String := fun url =>
  if url = "u1" then ["b.py", "a.py"] else ["c.py", "a.py"]

/-- A concrete configuration used as a test input. -/
def sampleConfig : Config :=
  { GITHUB_TOKEN := "token"
    GITHUB_REPO := "repo"
    GITHUB_REPO_OWNER := "owner"
    GITHUB_REPO_BRANCH := "main"
    GITHUB_API_URL := "https://api.github.com/repos/owner/repo/commits"
    DATE_RANGE := ("2024-03-12", "2025-01-01") }

/-- A concrete page sequence in which every commit record has an author. -/
def samplePages : List (List CommitRecord) :=
  [[⟨"c1", some ⟨"owner"⟩⟩, ⟨"c2", some ⟨"other"⟩⟩]]

/-- A concrete page sequence whose second fetched page holds a record with
a null author. -/
def samplePagesNull : List (List CommitRecord) :=
  [[⟨"c1", some ⟨"owner"⟩⟩], [⟨"c2", none⟩]]

/-! # Theorems -/

theorem handle_rate_limit_attemptsMade (st : RunState) (d : RespData) :
    (handle_rate_limit st d).attemptsMade = st.attemptsMade := by
  by_cases h1 : (d.status == 403 && d.hasRateLimitRemaining) = true
  · by_cases h2 : (0 : Int) < max (d.rateLimitReset - st.now) 0
    · simp [handle_rate_limit, h1, h2]
    · simp [handle_rate_limit, h1, h2]
  · simp [handle_rate_limit, h1]

theorem backoffSleep_attemptsMade (st : RunState) (attempt : Nat) :
    (backoffSleep st attempt).attemptsMade = st.attemptsMade := rfl

theorem withAttempts_attemptsMade (now : Int) (sleeps : List Int) (x : Nat) :
    (RunState.mk now sleeps x).attemptsMade = x := rfl

/-- One step of the retry loop when the GET raises a network error. -/
theorem make_request_loop_net (attempts : Nat → AttemptResult) (m k fuel : Nat)
    (st : RunState) (msg : String) (ha : attempts k = .netError msg) :
    make_request_loop attempts m k (fuel + 1) st =
      if k = m - 1 then
        (.failure (.netError msg), { st with attemptsMade := st.attemptsMade + 1 })
      else
        make_request_loop attempts m (k + 1) fuel
          (backoffSleep { st with attemptsMade := st.attemptsMade + 1 } k) := by
  simp only [make_request_loop, ha]

/-- One step of the retry loop when the GET returns a response. -/
theorem make_request_loop_resp (attempts : Nat → AttemptResult) (m k fuel : Nat)
    (st : RunState) (d : RespData) (ha : attempts k = .resp d) :
    make_request_loop attempts m k (fuel + 1) st =
      if raisesForStatus d then
        if k = m - 1 then
          (.failure (.httpError d.status),
            handle_rate_limit { st with attemptsMade := st.attemptsMade + 1 } d)
        else
          make_request_loop attempts m (k + 1) fuel
            (backoffSleep (handle_rate_limit { st with attemptsMade := st.attemptsMade + 1 } d) k)
      else
        (.success d, handle_rate_limit { st with attemptsMade := st.attemptsMade + 1 } d) := by
  simp only [make_request_loop, ha]

theorem raisesForStatus_of_attemptError (d : RespData)
    (hk : (attemptError (.resp d)).isSome) : raisesForStatus d = true := by
  by_contra hc
  rw [Bool.not_eq_true] at hc
  simp [attemptError, hc] at hk

/-- The retry loop, run from attempt `k` with fuel `r` satisfying the
invariant `k + r = max_retries`, when every remaining attempt fails:
it issues exactly `r` further GETs and propagates the error of the final
attempt. -/
theorem make_request_loop_all_fail (attempts : Nat → AttemptResult) (m : Nat) :
    ∀ r k st, k + r = m → 1 ≤ r →
      (∀ i, k ≤ i → i < m → (attemptError (attempts i)).isSome) →
      (make_request_loop attempts m k r st).2.attemptsMade = st.attemptsMade + r ∧
      ∃ e, attemptError (attempts (m - 1)) = some e ∧
        (make_request_loop attempts m k r st).1 = .failure e := by
  intro r
  induction r with
  | zero => intro k st h0 h1 _; omega
  | succ r ih =>
    intro k st hkr hr herr
    have hk : (attemptError (attempts k)).isSome := herr k le_rfl (by omega)
    rcases Nat.eq_zero_or_pos r with hr0 | hrpos
    · subst hr0
      have hlast : k = m - 1 := by omega
      rcases ha : attempts k with msg | d
      · rw [make_request_loop_net attempts m k 0 st msg ha, if_pos hlast]
        refine ⟨rfl, .netError msg, ?_, rfl⟩
        rw [← hlast, ha]; rfl
      · have hra : raisesForStatus d = true :=
          raisesForStatus_of_attemptError d (ha ▸ hk)
        rw [make_request_loop_resp attempts m k 0 st d ha, if_pos hra, if_pos hlast]
        refine ⟨?_, .httpError d.status, ?_, rfl⟩
        · rw [handle_rate_limit_attemptsMade]
        · rw [← hlast, ha]
          simp [attemptError, hra]
    · have hnotlast : ¬ (k = m - 1) := by omega
      rcases ha : attempts k with msg | d
      · rw [make_request_loop_net attempts m k r st msg ha, if_neg hnotlast]
        have h := ih (k + 1) (backoffSleep { st with attemptsMade := st.attemptsMade + 1 } k)
          (by omega) hrpos (fun i h1 h2 => herr i (by omega) h2)
        simp only [backoffSleep_attemptsMade, handle_rate_limit_attemptsMade,
          withAttempts_attemptsMade] at h
        exact ⟨by rw [h.1]; omega, h.2⟩
      · have hra : raisesForStatus d = true :=
          raisesForStatus_of_attemptError d (ha ▸ hk)
        rw [make_request_loop_resp attempts m k r st d ha, if_pos hra, if_neg hnotlast]
        have h := ih (k + 1)
          (backoffSleep (handle_rate_limit { st with attemptsMade := st.attemptsMade + 1 } d) k)
          (by omega) hrpos (fun i h1 h2 => herr i (by omega) h2)
        simp only [backoffSleep_attemptsMade, handle_rate_limit_attemptsMade,
          withAttempts_attemptsMade] at h
        exact ⟨by rw [h.1]; omega, h.2⟩

/-- C4: for every `maxRetries ≥ 1`, if every attempt of `make_request`
fails with a request-level error (a network error or a response failing
the status check), the executor makes exactly `maxRetries` attempts and
propagates the error of the final attempt (attempt `maxRetries - 1`) to
the caller, with no further attempt. -/
theorem make_request_all_fail (attempts : Nat → AttemptResult) (m : Nat) (t0 : Int)
    (hm : 1 ≤ m) (herr : ∀ i, i < m → (attemptError (attempts i)).isSome) :
    (make_request attempts m t0).2.attemptsMade = m ∧
    ∃ e, attemptError (attempts (m - 1)) = some e ∧
      (make_request attempts m t0).1 = .failure e := by
  have h := make_request_loop_all_fail attempts m m 0 ⟨t0, [], 0⟩ (by omega) hm
    (fun i _ h2 => herr i h2)
  simp only [withAttempts_attemptsMade, Nat.zero_add] at h
  exact h

/-- Witness for C4: three consecutive network failures with
`maxRetries = 3` make exactly 3 attempts and propagate the third error. -/
theorem make_request_all_fail_witness :
    (make_request (fun _ => .netError "boom") 3 0).2.attemptsMade = 3 ∧
    ∃ e, attemptError ((fun _ => AttemptResult.netError "boom") (3 - 1)) = some e ∧
      (make_request (fun _ => .netError "boom") 3 0).1 = .failure e :=
  make_request_all_fail (fun _ => .netError "boom") 3 0 (by decide)
    (fun i _ => by simp [attemptError])

/-- C8: `make_request` with `max_retries = 0` never enters the loop body:
it makes no attempt, performs no sleep, and falls through to return `None`
(`noResponse`, a value that is neither a `success` response nor a raised
`failure`), so the `Response | Error` contract does not hold there. -/
theorem make_request_zero_retries (attempts : Nat → AttemptResult) (t0 : Int) :
    make_request attempts 0 t0 = (.noResponse, ⟨t0, [], 0⟩) := rfl

/-- C3 counterexample: with `max_retries = 1`, attempt 0 an HTTP 403
carrying rate-limit headers (reset 5 seconds in the future) and attempt 1
a plain success, the executor does wait the 5 seconds, but the
rate-limited attempt consumes the one allowed attempt: the run raises
instead of retrying, even though the subsequent attempt would succeed
(as the `max_retries = 2` run of the same trace shows). -/
theorem rate_limited_attempt_consumes_retry :
    (make_request rateLimitedThenOk 1 0).2.sleeps = [5] ∧
    (make_request rateLimitedThenOk 1 0).1 = .failure (.httpError 403) ∧
    (make_request rateLimitedThenOk 1 0).2.attemptsMade = 1 ∧
    (make_request rateLimitedThenOk 2 0).1 =
      .success { status := 200, hasRateLimitRemaining := false, rateLimitReset := 0 } := by
  decide

/-- C3 amended: an attempt receiving HTTP 403 with rate-limit headers and
a reset timestamp in the future waits until the reset time, but the
attempt then fails the status check and counts against `maxRetries` like
any failed attempt; when it is not the last allowed attempt
(`maxRetries ≥ 2` here, for attempt 0) and the next attempt succeeds, the
run succeeds after exactly two attempts, having slept the rate-limit wait
and then the `2^0 = 1` second back-off. -/
theorem rate_limit_wait_then_retry_success (attempts : Nat → AttemptResult)
    (m : Nat) (d0 d1 : RespData) (t0 : Int)
    (hm : 2 ≤ m)
    (h0 : attempts 0 = .resp d0) (h403 : d0.status = 403)
    (hhdr : d0.hasRateLimitRemaining = true) (hfut : t0 < d0.rateLimitReset)
    (h1 : attempts 1 = .resp d1) (hok : d1.status = 200) :
    (make_request attempts m t0).1 = .success d1 ∧
    (make_request attempts m t0).2.sleeps = [d0.rateLimitReset - t0, 1] ∧
    (make_request attempts m t0).2.attemptsMade = 2 := by
  obtain ⟨k, rfl⟩ : ∃ k, m = k + 2 := ⟨m - 2, by omega⟩
  have hra0 : raisesForStatus d0 = true := by
    simp [raisesForStatus, h403]
  have hnotlast : ¬ (0 = k + 2 - 1) := by omega
  have hrl0 : handle_rate_limit ⟨t0, [], 1⟩ d0 =
      ⟨d0.rateLimitReset, [d0.rateLimitReset - t0], 1⟩ := by
    have hcond : (d0.status == 403 && d0.hasRateLimitRemaining) = true := by
      simp [h403, hhdr]
    have hmax : max (d0.rateLimitReset - t0) 0 = d0.rateLimitReset - t0 := by omega
    have hpos : (0 : Int) < max (d0.rateLimitReset - t0) 0 := by omega
    simp only [handle_rate_limit, hcond, if_true, hmax, if_pos (hmax ▸ hpos)]
    simp only [List.nil_append, RunState.mk.injEq, and_true, true_and, and_self]
    omega
  have hrl1 : ∀ st : RunState, handle_rate_limit st d1 = st := by
    intro st
    have hcond : (d1.status == 403 && d1.hasRateLimitRemaining) = false := by
      simp [hok]
    simp [handle_rate_limit, hcond]
  have hra1 : raisesForStatus d1 = false := by
    simp [raisesForStatus, hok]
  rw [make_request]
  rw [make_request_loop_resp attempts (k + 2) 0 (k + 1) ⟨t0, [], 0⟩ d0 h0]
  show _ ∧ _ ∧ _
  rw [if_pos hra0, if_neg hnotlast]
  have hst : handle_rate_limit { RunState.mk t0 [] 0 with attemptsMade := 0 + 1 } d0 =
      ⟨d0.rateLimitReset, [d0.rateLimitReset - t0], 1⟩ := hrl0
  rw [hst]
  have hback : backoffSleep ⟨d0.rateLimitReset, [d0.rateLimitReset - t0], 1⟩ 0 =
      ⟨d0.rateLimitReset + 1, [d0.rateLimitReset - t0, 1], 1⟩ := by
    simp [backoffSleep]
  rw [hback]
  rw [make_request_loop_resp attempts (k + 2) 1 k
    ⟨d0.rateLimitReset + 1, [d0.rateLimitReset - t0, 1], 1⟩ d1 h1]
  rw [if_neg (by rw [hra1]; exact Bool.false_ne_true)]
  rw [hrl1]
  exact ⟨rfl, rfl, rfl⟩

/-- Witness for the amended C3: the concrete trace, with `maxRetries = 2`
and clock 0, sleeps 5 seconds then 1 second and succeeds on attempt 1. -/
theorem rate_limit_wait_then_retry_success_witness :
    (make_request rateLimitedThenOk 2 0).1 =
      .success { status := 200, hasRateLimitRemaining := false, rateLimitReset := 0 } ∧
    (make_request rateLimitedThenOk 2 0).2.sleeps = [5, 1] ∧
    (make_request rateLimitedThenOk 2 0).2.attemptsMade = 2 := by
  have h := rate_limit_wait_then_retry_success rateLimitedThenOk 2
    { status := 403, hasRateLimitRemaining := true, rateLimitReset := 5 }
    { status := 200, hasRateLimitRemaining := false, rateLimitReset := 0 }
    0 (by decide) (by decide) rfl rfl (by decide) (by decide) rfl
  simpa using h

theorem mem_get_commit_files_go (files : List CommitFile) :
    ∀ acc f, f ∈ get_commit_files_go acc files → f ∈ acc ∨ isExcluded f = false := by
  induction files with
  | nil => intro acc f hf; exact .inl hf
  | cons file rest ih =>
    intro acc f hf
    by_cases h1 : isExcluded file.filename = true
    · rw [get_commit_files_go, if_pos h1] at hf
      exact ih acc f hf
    · rw [get_commit_files_go, if_neg h1] at hf
      by_cases h2 : file.filename ∈ acc
      · rw [if_pos h2] at hf
        exact ih acc f hf
      · rw [if_neg h2] at hf
        rcases ih _ f hf with hin | hex
        · rcases List.mem_append.mp hin with h | h
          · exact .inl h
          · rw [List.mem_singleton] at h
            subst h
            exact .inr (Bool.not_eq_true _ ▸ h1)
        · exact .inr hex

/-- C1: no path returned by `get_commit_files` ends with one of the
blocked suffixes `.pyc`, `.pyo`, `.pdf` or contains the marker substring
`old` anywhere in it. -/
theorem listChangedFiles_excludes_blocked (files : List CommitFile) (f : String)
    (hf : f ∈ get_commit_files files) :
    strEndsWith f ".pyc" = false ∧ strEndsWith f ".pyo" = false ∧
    strEndsWith f ".pdf" = false ∧ hasSubseg "old".toList f.toList = false := by
  rcases mem_get_commit_files_go files [] f hf with h | h
  · exact absurd h (List.not_mem_nil f)
  · simp only [isExcluded, blockedExts, Bool.or_eq_false_iff, List.any_eq_false,
      List.mem_cons, List.not_mem_nil, or_false, Bool.not_eq_true] at h
    obtain ⟨h1, h2⟩ := h
    exact ⟨h1 ".pyc" (.inl rfl), h1 ".pyo" (.inr (.inl rfl)),
      h1 ".pdf" (.inr (.inr rfl)), h2⟩

/-- Witness for C1 at a concrete payload. -/
theorem listChangedFiles_excludes_blocked_witness :
    "src/app.py" ∈ get_commit_files samplePayload ∧
    (strEndsWith "src/app.py" ".pyc" = false ∧ strEndsWith "src/app.py" ".pyo" = false ∧
     strEndsWith "src/app.py" ".pdf" = false ∧
     hasSubseg "old".toList "src/app.py".toList = false) :=
  ⟨by decide, listChangedFiles_excludes_blocked samplePayload "src/app.py" (by decide)⟩

theorem firstOccurrences_filter (p : String → Bool) :
    ∀ l, firstOccurrences (l.filter p) = (firstOccurrences l).filter p := by
  intro l
  induction l with
  | nil => rfl
  | cons a l ih =>
    by_cases hpa : p a = true
    · rw [List.filter_cons_of_pos hpa, firstOccurrences, firstOccurrences, ih,
        List.filter_cons_of_pos hpa, List.filter_filter, List.filter_filter]
      congr 1
      apply List.filter_congr
      intro g _
      exact Bool.and_comm _ _
    · rw [List.filter_cons_of_neg hpa, firstOccurrences, ih,
        List.filter_cons_of_neg hpa, List.filter_filter]
      apply List.filter_congr
      intro g _
      cases hpg : p g with
      | false => rfl
      | true =>
        have hga : g ≠ a := fun he => hpa (he ▸ hpg)
        simp [hga]

theorem firstOccurrences_nodup : ∀ l, (firstOccurrences l).Nodup := by
  intro l
  induction l with
  | nil => exact List.nodup_nil
  | cons a l ih =>
    rw [firstOccurrences]
    refine List.nodup_cons.mpr ⟨?_, List.Nodup.filter _ ih⟩
    intro hmem
    have := List.of_mem_filter hmem
    simp at this

theorem get_commit_files_go_eq (files : List CommitFile) :
    ∀ acc, get_commit_files_go acc files =
      acc ++ firstOccurrences (((files.map CommitFile.filename).filter
        (fun f => !isExcluded f)).filter (fun f => !(decide (f ∈ acc)))) := by
  induction files with
  | nil => intro acc; simp [get_commit_files_go, firstOccurrences]
  | cons file rest ih =>
    intro acc
    rw [List.map_cons]
    by_cases hex : isExcluded file.filename = true
    · rw [get_commit_files_go, if_pos hex, ih acc,
        List.filter_cons_of_neg (by simp [hex])]
    · have hkeep : (!isExcluded file.filename) = true := by simp [hex]
      have hinner : List.filter (fun f => !isExcluded f)
          (file.filename :: rest.map CommitFile.filename) =
          file.filename :: List.filter (fun f => !isExcluded f) (rest.map CommitFile.filename) :=
        List.filter_cons_of_pos hkeep
      rw [get_commit_files_go, if_neg hex, hinner]
      by_cases hacc : file.filename ∈ acc
      · have houter : List.filter (fun f => !(decide (f ∈ acc)))
            (file.filename ::
              List.filter (fun f => !isExcluded f) (rest.map CommitFile.filename)) =
            List.filter (fun f => !(decide (f ∈ acc)))
              (List.filter (fun f => !isExcluded f) (rest.map CommitFile.filename)) :=
          List.filter_cons_of_neg (by simp [hacc])
        rw [if_pos hacc, ih acc, houter]
      · have houter : List.filter (fun f => !(decide (f ∈ acc)))
            (file.filename ::
              List.filter (fun f => !isExcluded f) (rest.map CommitFile.filename)) =
            file.filename :: List.filter (fun f => !(decide (f ∈ acc)))
              (List.filter (fun f => !isExcluded f) (rest.map CommitFile.filename)) :=
          List.filter_cons_of_pos (by simp [hacc])
        rw [if_neg hacc, ih (acc ++ [file.filename]), houter, firstOccurrences,
          List.append_assoc, List.singleton_append]
        congr 2
        have hpred : ∀ f : String, (!(decide (f ∈ acc ++ [file.filename]))) =
            ((f != file.filename) && !(decide (f ∈ acc))) := by
          intro f
          by_cases hf1 : f = file.filename
          · subst hf1; simp
          · by_cases hf2 : f ∈ acc <;> simp [hf1, hf2]
        rw [List.filter_congr (fun f _ => hpred f), ← List.filter_filter,
          firstOccurrences_filter]

/-- C7: `get_commit_files` returns exactly the non-excluded filenames of
the payload, deduplicated to their first occurrences in order (later
occurrences of an already-seen filename are dropped), hence each appears
exactly once. -/
theorem listChangedFiles_first_occurrence (files : List CommitFile) :
    get_commit_files files =
      firstOccurrences ((files.map CommitFile.filename).filter (fun f => !isExcluded f)) ∧
    (get_commit_files files).Nodup := by
  have h := get_commit_files_go_eq files []
  have hfilter : ((files.map CommitFile.filename).filter (fun f => !isExcluded f)).filter
      (fun f => !(decide (f ∈ ([] : List String)))) =
      (files.map CommitFile.filename).filter (fun f => !isExcluded f) :=
    List.filter_eq_self.mpr (fun a _ => by simp)
  rw [get_commit_files, h, hfilter, List.nil_append]
  exact ⟨rfl, firstOccurrences_nodup _⟩

theorem setAdd_nodup (files : List String) (x : String) (h : files.Nodup) :
    (setAdd files x).Nodup := by
  by_cases hx : x ∈ files
  · rw [setAdd, if_pos hx]; exact h
  · rw [setAdd, if_neg hx, List.nodup_append]
    refine ⟨h, List.nodup_singleton x, fun a ha hax => ?_⟩
    rw [List.mem_singleton] at hax
    exact hx (hax ▸ ha)

theorem mem_setAdd (files : List String) (x y : String) :
    y ∈ setAdd files x ↔ y ∈ files ∨ y = x := by
  by_cases hx : x ∈ files
  · rw [setAdd, if_pos hx]
    constructor
    · exact .inl
    · rintro (h | rfl)
      · exact h
      · exact hx
  · rw [setAdd, if_neg hx]
    simp [List.mem_append]

theorem setUpdate_nodup (xs : List String) :
    ∀ files : List String, files.Nodup → (setUpdate files xs).Nodup := by
  induction xs with
  | nil => intro files h; exact h
  | cons x xs ih => intro files h; exact ih _ (setAdd_nodup files x h)

theorem mem_setUpdate (xs : List String) :
    ∀ (files : List String) (y : String), y ∈ setUpdate files xs ↔ y ∈ files ∨ y ∈ xs := by
  induction xs with
  | nil => intro files y; simp [setUpdate]
  | cons x xs ih =>
    intro files y
    have hstep : setUpdate files (x :: xs) = setUpdate (setAdd files x) xs := rfl
    rw [hstep, ih, mem_setAdd, List.mem_cons]
    tauto

theorem aggregate_fold_nodup (resolve : String → List String) (urls : List String) :
    ∀ files : List String, files.Nodup →
      (urls.foldl (fun fs url => setUpdate fs (resolve url)) files).Nodup := by
  induction urls with
  | nil => intro files h; exact h
  | cons u urls ih => intro files h; exact ih _ (setUpdate_nodup (resolve u) files h)

theorem mem_aggregate_fold (resolve : String → List String) (urls : List String) :
    ∀ (files : List String) (y : String),
      y ∈ urls.foldl (fun fs url => setUpdate fs (resolve url)) files ↔
        y ∈ files ∨ ∃ u ∈ urls, y ∈ resolve u := by
  induction urls with
  | nil => intro files y; simp
  | cons u urls ih =>
    intro files y
    rw [List.foldl_cons, ih, mem_setUpdate]
    simp only [List.mem_cons]
    constructor
    · rintro ((h | h) | ⟨v, hv, hy⟩)
      · exact .inl h
      · exact .inr ⟨u, .inl rfl, h⟩
      · exact .inr ⟨v, .inr hv, hy⟩
    · rintro (h | ⟨v, (rfl | hv), hy⟩)
      · exact .inl (.inl h)
      · exact .inl (.inr hy)
      · exact .inr ⟨v, hv, hy⟩

theorem stringLe_trans :
    ∀ a b c : String, stringLe a b = true → stringLe b c = true → stringLe a c = true := by
  intro a b c hab hbc
  simp only [stringLe, decide_eq_true_eq] at hab hbc ⊢
  exact le_trans hab hbc

theorem stringLe_total : ∀ a b : String, (stringLe a b || stringLe b a) = true := by
  intro a b
  simp only [stringLe, Bool.or_eq_true, decide_eq_true_eq]
  exact le_total a b

theorem aggregate_sorted_le (resolve : String → List String) (urls : List String) :
    List.Sorted (· ≤ ·) (get_commits_files resolve urls) := by
  have h := List.sorted_mergeSort stringLe_trans stringLe_total
    (urls.foldl (fun files url => setUpdate files (resolve url)) [])
  exact h.imp (fun hab => by simpa only [stringLe, decide_eq_true_eq] using hab)

theorem aggregate_nodup (resolve : String → List String) (urls : List String) :
    (get_commits_files resolve urls).Nodup := by
  have hperm := List.mergeSort_perm
    (urls.foldl (fun files url => setUpdate files (resolve url)) []) stringLe
  exact hperm.symm.nodup (aggregate_fold_nodup resolve urls [] List.nodup_nil)

/-- C2: for every list of commit URLs (including the empty list) and every
resolver, the list returned by `get_commits_files` is sorted in ascending
lexicographic order and contains no duplicate entries. -/
theorem aggregate_sorted_and_nodup (resolve : String → List String) (urls : List String) :
    List.Sorted (· ≤ ·) (get_commits_files resolve urls) ∧
    (get_commits_files resolve urls).Nodup :=
  ⟨aggregate_sorted_le resolve urls, aggregate_nodup resolve urls⟩

/-- C5: for every fixed resolver, applying `get_commits_files` to any
permutation of the URL sequence yields the same sorted output list. -/
theorem aggregate_perm_invariant (resolve : String → List String) (urls1 urls2 : List String)
    (hp : urls1.Perm urls2) :
    get_commits_files resolve urls1 = get_commits_files resolve urls2 := by
  have h1 : (urls1.foldl (fun files url => setUpdate files (resolve url)) []).Nodup :=
    aggregate_fold_nodup resolve urls1 [] List.nodup_nil
  have h2 : (urls2.foldl (fun files url => setUpdate files (resolve url)) []).Nodup :=
    aggregate_fold_nodup resolve urls2 [] List.nodup_nil
  have hmem : ∀ y, y ∈ urls1.foldl (fun files url => setUpdate files (resolve url)) [] ↔
      y ∈ urls2.foldl (fun files url => setUpdate files (resolve url)) [] := by
    intro y
    rw [mem_aggregate_fold, mem_aggregate_fold]
    constructor
    · rintro (h | ⟨u, hu, hy⟩)
      · exact .inl h
      · exact .inr ⟨u, hp.mem_iff.mp hu, hy⟩
    · rintro (h | ⟨u, hu, hy⟩)
      · exact .inl h
      · exact .inr ⟨u, hp.mem_iff.mpr hu, hy⟩
  have hfoldperm := (List.perm_ext_iff_of_nodup h1 h2).mpr hmem
  have hperm : ((urls1.foldl (fun files url => setUpdate files (resolve url)) []).mergeSort
      stringLe).Perm
      ((urls2.foldl (fun files url => setUpdate files (resolve url)) []).mergeSort stringLe) :=
    ((List.mergeSort_perm _ stringLe).trans hfoldperm).trans
      (List.mergeSort_perm _ stringLe).symm
  exact List.eq_of_perm_of_sorted hperm
    (aggregate_sorted_le resolve urls1) (aggregate_sorted_le resolve urls2)

/-- Witness for C5 at a concrete resolver and permuted URL lists. -/
theorem aggregate_perm_invariant_witness :
    get_commits_files sampleResolve ["u1", "u2"] =
      get_commits_files sampleResolve ["u2", "u1"] :=
  aggregate_perm_invariant sampleResolve ["u1", "u2"] ["u2", "u1"] (by decide)

theorem filterCommits_ok (owner : String) (data : List CommitRecord)
    (hall : ∀ c ∈ data, c.author.isSome) :
    ∃ us, filterCommits owner data = .ok us ∧
      ∀ u ∈ us, ∃ c ∈ data, c.url = u ∧ ∃ a, c.author = some a ∧ a.login = owner := by
  induction data with
  | nil => exact ⟨[], rfl, by simp⟩
  | cons commit rest ih =>
    obtain ⟨a, ha⟩ := Option.isSome_iff_exists.mp (hall commit (List.mem_cons_self _ _))
    obtain ⟨us, hus, hprop⟩ := ih (fun c hc => hall c (List.mem_cons_of_mem _ hc))
    by_cases hlogin : (a.login == owner) = true
    · refine ⟨commit.url :: us, ?_, ?_⟩
      · simp only [filterCommits, ha, hus, if_pos hlogin]
      · intro u hu
        rcases List.mem_cons.mp hu with rfl | hu
        · exact ⟨commit, List.mem_cons_self _ _, rfl, a, ha, beq_iff_eq.mp hlogin⟩
        · obtain ⟨c, hc, hrest⟩ := hprop u hu
          exact ⟨c, List.mem_cons_of_mem _ hc, hrest⟩
    · refine ⟨us, ?_, ?_⟩
      · simp only [filterCommits, ha, hus, if_neg hlogin]
      · intro u hu
        obtain ⟨c, hc, hrest⟩ := hprop u hu
        exact ⟨c, List.mem_cons_of_mem _ hc, hrest⟩

theorem filterCommits_error (owner : String) (data : List CommitRecord) (c : CommitRecord)
    (hc : c ∈ data) (hnone : c.author = none) :
    ∃ e, filterCommits owner data = .error e := by
  induction data with
  | nil => cases hc
  | cons commit rest ih =>
    rcases List.mem_cons.mp hc with rfl | hmem
    · exact ⟨"TypeError", by simp only [filterCommits, hnone]⟩
    · cases hca : commit.author with
      | none => exact ⟨"TypeError", by simp only [filterCommits, hca]⟩
      | some a =>
        obtain ⟨e, he⟩ := ih hmem
        exact ⟨e, by simp only [filterCommits, hca, he]⟩

theorem get_commit_urls_go_ok (config : Config) (pages : List (List CommitRecord)) :
    ∀ page, (∀ p ∈ pages, ∀ c ∈ p, c.author.isSome) →
      ∃ urls, (get_commit_urls_go config pages page).1 = .ok urls ∧
        ∀ u ∈ urls, ∃ c ∈ pages.flatten, c.url = u ∧
          ∃ a, c.author = some a ∧ a.login = config.GITHUB_REPO_OWNER := by
  induction pages with
  | nil => intro page _; exact ⟨[], rfl, by simp⟩
  | cons data rest ih =>
    intro page hall
    by_cases hemp : data.isEmpty = true
    · refine ⟨[], ?_, by simp⟩
      simp only [get_commit_urls_go, if_pos hemp]
    · obtain ⟨us, hus, hprop⟩ := filterCommits_ok config.GITHUB_REPO_OWNER data
        (hall data (List.mem_cons_self _ _))
      obtain ⟨more, hmore, hmoreprop⟩ := ih (page + 1)
        (fun p hp => hall p (List.mem_cons_of_mem _ hp))
      refine ⟨us ++ more, ?_, ?_⟩
      · simp only [get_commit_urls_go, if_neg hemp, hus, hmore]
        rfl
      · intro u hu
        rcases List.mem_append.mp hu with hu | hu
        · obtain ⟨c, hc, hrest⟩ := hprop u hu
          exact ⟨c, List.mem_flatten.mpr ⟨data, List.mem_cons_self _ _, hc⟩, hrest⟩
        · obtain ⟨c, hc, hrest⟩ := hmoreprop u hu
          obtain ⟨p, hp, hcp⟩ := List.mem_flatten.mp hc
          exact ⟨c, List.mem_flatten.mpr ⟨p, List.mem_cons_of_mem _ hp, hcp⟩, hrest⟩

/-- C6: when every commit record of every page has an author, the
enumerator succeeds and every URL it returns comes from a commit record
whose author login equals the configured owner, by exact string match. -/
theorem listCommitURLs_filter_correct (config : Config) (pages : List (List CommitRecord))
    (hall : ∀ p ∈ pages, ∀ c ∈ p, c.author.isSome) :
    ∃ urls, (get_commit_urls config pages).1 = .ok urls ∧
      ∀ u ∈ urls, ∃ c ∈ pages.flatten, c.url = u ∧
        ∃ a, c.author = some a ∧ a.login = config.GITHUB_REPO_OWNER :=
  get_commit_urls_go_ok config pages 1 hall

/-- Witness for C6 at a concrete configuration and page sequence. -/
theorem listCommitURLs_filter_correct_witness :
    (∀ p ∈ samplePages, ∀ c ∈ p, c.author.isSome) ∧
    ∃ urls, (get_commit_urls sampleConfig samplePages).1 = .ok urls ∧
      ∀ u ∈ urls, ∃ c ∈ samplePages.flatten, c.url = u ∧
        ∃ a, c.author = some a ∧ a.login = sampleConfig.GITHUB_REPO_OWNER :=
  ⟨by decide, listCommitURLs_filter_correct sampleConfig samplePages (by decide)⟩

theorem get_commit_urls_go_error (config : Config) (pages : List (List CommitRecord)) :
    ∀ page (c : CommitRecord),
      c ∈ (pages.takeWhile (fun p => !p.isEmpty)).flatten → c.author = none →
      ∃ e, (get_commit_urls_go config pages page).1 = .error e := by
  induction pages with
  | nil => intro page c hc _; simp at hc
  | cons data rest ih =>
    intro page c hc hnone
    by_cases hemp : data.isEmpty = true
    · rw [List.takeWhile_cons] at hc
      simp [hemp] at hc
    · rw [List.takeWhile_cons, if_pos (by simp [hemp])] at hc
      rw [List.flatten_cons, List.mem_append] at hc
      rcases hc with hcd | hcrest
      · obtain ⟨e, he⟩ := filterCommits_error config.GITHUB_REPO_OWNER data c hcd hnone
        refine ⟨e, ?_⟩
        simp only [get_commit_urls_go, if_neg hemp, he]
      · cases hfc : filterCommits config.GITHUB_REPO_OWNER data with
        | error e =>
          refine ⟨e, ?_⟩
          simp only [get_commit_urls_go, if_neg hemp, hfc]
        | ok us =>
          obtain ⟨e, he⟩ := ih (page + 1) c hcrest hnone
          refine ⟨e, ?_⟩
          simp only [get_commit_urls_go, if_neg hemp, hfc, he]
          rfl

/-- C9: if any commit record of a fetched page (a page reached before the
empty-page termination) has a null author, the enumerator raises an error
instead of skipping the record. -/
theorem listCommitURLs_null_author_error (config : Config)
    (pages : List (List CommitRecord)) (c : CommitRecord)
    (hc : c ∈ (pages.takeWhile (fun p => !p.isEmpty)).flatten)
    (hnone : c.author = none) :
    ∃ e, (get_commit_urls config pages).1 = .error e :=
  get_commit_urls_go_error config pages 1 c hc hnone

/-- Witness for C9 at a concrete page sequence with a null author. -/
theorem listCommitURLs_null_author_error_witness :
    (CommitRecord.mk "c2" none ∈
      (samplePagesNull.takeWhile (fun p => !p.isEmpty)).flatten) ∧
    ∃ e, (get_commit_urls sampleConfig samplePagesNull).1 = .error e :=
  ⟨by decide,
    listCommitURLs_null_author_error sampleConfig samplePagesNull
      (CommitRecord.mk "c2" none) (by decide) rfl⟩

theorem get_commit_urls_go_branch (config : Config) (b : String)
    (pages : List (List CommitRecord)) :
    ∀ page, get_commit_urls_go { config with GITHUB_REPO_BRANCH := b } pages page =
      get_commit_urls_go config pages page := by
  induction pages with
  | nil => intro page; rfl
  | cons data rest ih =>
    intro page
    simp only [get_commit_urls_go]
    rw [ih (page + 1)]
    rfl

/-- C10: two runs whose configurations differ only in
`GITHUB_REPO_BRANCH` issue the same list and detail requests with the same
parameters and produce the same output: the branch field is never used by
the enumerator, resolver, or aggregator. -/
theorem pipeline_branch_irrelevant (config : Config) (b : String)
    (pages : List (List CommitRecord)) (detail : String → List CommitFile) :
    run_pipeline { config with GITHUB_REPO_BRANCH := b } pages detail =
      run_pipeline config pages detail := by
  rw [run_pipeline, run_pipeline, get_commit_urls, get_commit_urls,
    get_commit_urls_go_branch config b pages]
  cases hgo : get_commit_urls_go config pages 1 with
  | mk r reqs => cases r <;> rfl

end GitFiles
